import Mathlib

/-!
# Verification of the file-backed blog content store (`app/main.py`)

This file shallowly embeds the core of the repository's single source file
`app/main.py` — the slug deriver, the metadata codec, the version store and
the post repository endpoints — as executable Lean definitions, and proves
or refutes the frozen claims about them.

Modeling conventions:
* Python strings are Lean `String`s; the Python string methods used by the
  source (`lower`, `startswith`, `strip`, `split`, `splitlines`, `join`)
  are re-implemented below on `String.data` (lists of characters) with
  Python's semantics (ASCII case folding; `splitlines` recognises
  `"\n"`, `"\r\n"` and `"\r"` and drops a trailing line break).
* The filesystem is a `Store` of three association lists (published posts,
  drafts, and version namespaces keyed by `(status, slug)`).
* Version filenames are `strftime("%Y%m%d%H%M%S")` timestamps — 14-digit
  strings, on which Python's lexicographic `sorted()` coincides with
  numeric order — so they are modeled as `Nat` passed in explicitly.
* Rendering (markdown/notebook → HTML) and HTTP transport are external
  collaborators per the spec and are not modeled; endpoint functions
  return the resulting `Store`.
-/

namespace Blog

/-! ## Python string primitives -/

/-- Python `str.lower()` (ASCII case folding). -/
def pyLower (s : String) : String := ⟨s.data.map Char.toLower⟩

/-- Python `s.startswith(p)`. -/
def pyStartswith (s p : String) : Bool := p.data.isPrefixOf s.data

/-- Drop characters satisfying `p` from both ends (Python `str.strip`). -/
def dropAround (p : Char → Bool) (cs : List Char) : List Char :=
  ((cs.dropWhile p).reverse.dropWhile p).reverse

/-- Python `s.strip()` — strip whitespace from both ends. -/
def pyStrip (s : String) : String := ⟨dropAround Char.isWhitespace s.data⟩

/-- Python `s.split(sep)` for a single-character separator, on char lists. -/
def splitChar (sep : Char) : List Char → List (List Char)
  | [] => [[]]
  | c :: rest =>
    let r := splitChar sep rest
    if c = sep then [] :: r else (c :: r.headI) :: r.tail

/-- Everything after the first occurrence of `sep`
(Python `s.split(sep, 1)[1]`; only used when `sep` is known to occur). -/
def afterFirst (sep : Char) (cs : List Char) : List Char :=
  (cs.dropWhile (· ≠ sep)).drop 1

/-- Python `sep.join(parts)` on char lists. -/
def joinWith (sep : List Char) : List (List Char) → List Char
  | [] => []
  | [x] => x
  | x :: xs => x ++ sep ++ joinWith sep xs

/-- Python `sep.join(parts)`. -/
def pyJoin (sep : String) (parts : List String) : String :=
  ⟨joinWith sep.data (parts.map String.data)⟩

/-- Worker for Python `str.splitlines()`: accumulates the current line in
reverse; a trailing line-break produces no extra empty line. -/
def splitlinesAux : List Char → List Char → List (List Char)
  | [], acc => if acc.isEmpty then [] else [acc.reverse]
  | '\r' :: '\n' :: rest, acc => acc.reverse :: splitlinesAux rest []
  | '\n' :: rest, acc => acc.reverse :: splitlinesAux rest []
  | '\r' :: rest, acc => acc.reverse :: splitlinesAux rest []
  | c :: rest, acc => splitlinesAux rest (c :: acc)

/-- Python `s.splitlines()`. -/
def splitlines (s : String) : List String :=
  (splitlinesAux s.data []).map fun l => ⟨l⟩

/-! ## Slug deriver (`slugify`, main.py:28) -/

/-- `slugify`: lowercase the title, replace every non-alphanumeric
character by a dash, and strip leading/trailing dashes
(`"".join(c if c.isalnum() else "-" for c in title.lower()).strip("-")`). -/
def slugify (title : String) : String :=
  ⟨dropAround (· = '-')
    ((title.data.map Char.toLower).map fun c => if c.isAlphanum then c else '-')⟩

/-! ## Metadata codec (`parse_metadata`, main.py:40; header built inline
in the endpoints, main.py:268-273) -/

/-- Value of a consumed `tags:` line:
`[t.strip() for t in line.split(":", 1)[1].split(",") if t.strip()]`. -/
def parseTagsValue (l : String) : List String :=
  (((splitChar ',' (afterFirst ':' l.data)).map
      (dropAround Char.isWhitespace)).filter (· ≠ [])).map
    fun cs => (⟨cs⟩ : String)

/-- Value of a consumed `category:` line:
`line.split(":", 1)[1].strip()`. -/
def parseCategoryValue (l : String) : String :=
  ⟨dropAround Char.isWhitespace (afterFirst ':' l.data)⟩

/-- The `while lines:` loop of `parse_metadata`: consume leading
`tags:` / `category:` lines (case-insensitively), last assignment wins. -/
def parseLoop : List String → List String → String →
    List String × List String × String
  | [], tags, category => ([], tags, category)
  | l :: rest, tags, category =>
    if pyStartswith (pyLower l) "tags:" then
      parseLoop rest (parseTagsValue l) category
    else if pyStartswith (pyLower l) "category:" then
      parseLoop rest tags (parseCategoryValue l)
    else (l :: rest, tags, category)

/-- `parse_metadata(content)`: strip the metadata preamble off the top of a
post, then consume one following blank line if present; returns
`(body, tags, category)`. -/
def parse_metadata (content : String) : String × List String × String :=
  let r := parseLoop (splitlines content) [] ""
  let lines := if r.1.head? = some "" then r.1.tail else r.1
  (pyJoin "\n" lines, r.2.1, r.2.2)

/-- The header construction inlined in `admin_new_post_post` /
`admin_edit_post_post` (main.py:268-273): optional `Category:` line,
optional `Tags:` line (the raw comma-separated form string), a blank
line, then the body — or the body alone when both are empty. -/
def build_full (content tags category : String) : String :=
  let header : List String :=
    (if category ≠ "" then ["Category: " ++ category] else []) ++
    (if tags ≠ "" then ["Tags: " ++ tags] else [])
  if header ≠ [] then pyJoin "\n" (header ++ ["", content]) else content

/-- The spec's `renderMetadata(tags, category, body)`: the header builder
applied to the comma-joined tag list (the join convention the edit form
uses, main.py:295). -/
def render_metadata (tags : List String) (category body : String) : String :=
  build_full body (pyJoin ", " tags) category

/-! ## Filesystem model -/

/-- A directory of files: an association list from filename to content.
Used with `String` keys (post filenames), `Nat` keys (version
timestamps, see the header comment), and `(status, slug)` keys (version
namespaces). -/
def lookupFile {κ β : Type} [DecidableEq κ] :
    List (κ × β) → κ → Option β
  | [], _ => none
  | p :: t, n => if p.1 = n then some p.2 else lookupFile t n

/-- `path.write_text(content)`: replace any entry with this name. -/
def writeFile {κ β : Type} [DecidableEq κ] (files : List (κ × β))
    (name : κ) (content : β) : List (κ × β) :=
  files.filter (fun p => p.1 ≠ name) ++ [(name, content)]

/-- `path.unlink()`. -/
def removeFile {κ β : Type} [DecidableEq κ] (files : List (κ × β))
    (name : κ) : List (κ × β) :=
  files.filter (fun p => p.1 ≠ name)

/-- `name.rsplit(".", 1)[0]`: the filename without its last extension. -/
def stem (name : String) : String :=
  if name.data.contains '.' then
    ⟨((name.data.reverse.dropWhile (· ≠ '.')).drop 1).reverse⟩
  else name

/-! ## Version store (`save_version`, main.py:58) -/

/-- The body of `save_version` acting on one `(status, slug)` namespace:
write the timestamped file, then `sorted(dir_path.glob("*.md"))` and
delete all but the last three. -/
def save_version_ns (files : List (Nat × String)) (ts : Nat)
    (content : String) : List (Nat × String) :=
  let files' := writeFile files ts content
  let versions := List.insertionSort (· ≤ ·) (files'.map Prod.fst)
  if 3 < versions.length then
    let keep := versions.drop (versions.length - 3)
    files'.filter fun p => keep.contains p.1
  else files'

/-- A sequence of `save_version` calls for one `(state, slug)` namespace,
starting from an empty directory: each element is the timestamp and
content of one save. -/
def runSaves (saves : List (Nat × String)) : List (Nat × String) :=
  saves.foldl (fun ns p => save_version_ns ns p.1 p.2) []

/-- The on-disk state: published posts (the flat `posts/` root), drafts
(`posts/drafts/`), and version namespaces (`posts/versions/{status}/{slug}/`). -/
structure Store where
  published : List (String × String)
  drafts : List (String × String)
  versions : List ((String × String) × List (Nat × String))
  deriving DecidableEq

/-- The version namespace for a `(status, slug)` key (empty when the
directory does not exist yet). -/
def nsOf (st : Store) (status slug : String) : List (Nat × String) :=
  (lookupFile st.versions (status, slug)).getD []

/-- `save_version(status, name, content)` at the store level. -/
def save_version (st : Store) (status name : String) (ts : Nat)
    (content : String) : Store :=
  let slug := stem name
  let ns2 := save_version_ns (nsOf st status slug) ts content
  { st with versions := writeFile st.versions (status, slug) ns2 }

/-- The draft / published collection selected by `DRAFTS_DIR if ... else
POSTS_DIR`. -/
def collOf (st : Store) (isDraft : Bool) : List (String × String) :=
  if isDraft then st.drafts else st.published

/-- Write a file into the drafts or published collection. -/
def writeTo (st : Store) (isDraft : Bool) (name content : String) : Store :=
  if isDraft then { st with drafts := writeFile st.drafts name content }
  else { st with published := writeFile st.published name content }

/-- Remove a file from the drafts or published collection. -/
def removeFrom (st : Store) (isDraft : Bool) (name : String) : Store :=
  if isDraft then { st with drafts := removeFile st.drafts name }
  else { st with published := removeFile st.published name }

/-! ## Post repository endpoints (store effects only; template rendering
and redirects are external collaborators) -/

/-- `POST /admin/posts/new` (main.py:234): preview is a pure render;
otherwise derive the filename from the title, snapshot any existing file
at the target, and write the encoded content. -/
def admin_new_post_post (st : Store) (title content tags category
    action : String) (ts : Nat) : Store :=
  if action = "preview" then st
  else
    let filename := slugify title ++ ".md"
    let isDraft : Bool := action ≠ "publish"
    let version_status := if action = "publish" then "published" else "draft"
    let st1 :=
      match lookupFile (collOf st isDraft) filename with
      | some old => save_version st version_status filename ts old
      | none => st
    writeTo st1 isDraft filename (build_full content tags category)

/-- `POST /admin/posts/edit/{status}/{name}` (main.py:304): preview is a
pure render; otherwise snapshot the existing file at `(status, name)`,
write the encoded content at the (possibly different) target derived
from the title and the `action`, and delete the original when the
target path differs. -/
def admin_edit_post_post (st : Store) (status name title content tags
    category action : String) (ts : Nat) : Store :=
  if action = "preview" then st
  else
    let oldIsDraft : Bool := status = "draft"
    let st1 :=
      match lookupFile (collOf st oldIsDraft) name with
      | some old => save_version st status name ts old
      | none => st
    let new_filename := slugify title ++ ".md"
    let newIsDraft : Bool := action ≠ "publish"
    let st2 := writeTo st1 newIsDraft new_filename
      (build_full content tags category)
    if (oldIsDraft = newIsDraft ∧ name = new_filename) then st2
    else if (lookupFile (collOf st2 oldIsDraft) name).isSome then
      removeFrom st2 oldIsDraft name
    else st2

/-- `POST /admin/posts/delete/{status}/{name}` (main.py:351): unlink the
file if it exists. -/
def admin_delete_post (st : Store) (status name : String) : Store :=
  let isDraft : Bool := status = "draft"
  if (lookupFile (collOf st isDraft) name).isSome then
    removeFrom st isDraft name
  else st

/-- `POST /admin/posts/versions/{status}/{name}/{version}/restore`
(main.py:402): 404 when the version file is absent; otherwise snapshot
the current content at the destination (if any) and overwrite it with
the version's content.  `ts` is the `datetime.now()` timestamp of the
snapshot taken during the restore. -/
def admin_post_version_restore (st : Store) (status name : String)
    (version : Nat) (ts : Nat) : Except Unit Store :=
  let slug := stem name
  match lookupFile (nsOf st status slug) version with
  | none => .error ()
  | some content =>
    let isDraft : Bool := status = "draft"
    let st1 :=
      match lookupFile (collOf st isDraft) name with
      | some cur => save_version st status name ts cur
      | none => st
    .ok (writeTo st1 isDraft name content)

/-! ## Index builder (`search`, main.py:136) -/

/-- A notebook cell as read by `nbformat` (only the fields the source
touches). -/
structure Cell where
  cell_type : String
  source : String
  deriving DecidableEq

/-- Does `needle` occur as a contiguous run inside the list? -/
def hasRun (needle : List Char) : List Char → Bool
  | [] => needle.isEmpty
  | c :: rest => needle.isPrefixOf (c :: rest) || hasRun needle rest

/-- Python `needle in haystack` on strings. -/
def pyContains (haystack needle : String) : Bool :=
  hasRun needle.data haystack.data

/-- `GET /search?q=`: empty query short-circuits to no results; otherwise
case-insensitive substring match over each published markdown file's raw
text, then over the concatenated markdown-cell sources of each published
notebook. -/
def search (md_posts : List (String × String))
    (nb_posts : List (String × List Cell)) (q : String) : List String :=
  if q = "" then []
  else
    let query := pyLower q
    (md_posts.filter fun p => pyContains (pyLower p.2) query).map Prod.fst ++
      (nb_posts.filter fun p =>
        pyContains
          (pyLower ⟨joinWith []
            (((p.2.filter fun c => c.cell_type = "markdown").map
              Cell.source).map String.data)⟩)
          query).map Prod.fst

/-! ## General lemmas about the directory model -/

theorem lookupFile_removeFile_self {κ β : Type} [DecidableEq κ]
    (fs : List (κ × β)) (n : κ) :
    lookupFile (removeFile fs n) n = none := by
  induction fs with
  | nil => simp [removeFile, lookupFile]
  | cons a t ih =>
    by_cases h : a.1 = n
    · simpa [removeFile, List.filter_cons, h] using ih
    · simpa [removeFile, List.filter_cons, h, lookupFile] using ih

theorem lookupFile_removeFile_ne {κ β : Type} [DecidableEq κ]
    (fs : List (κ × β)) (n m : κ) (h : m ≠ n) :
    lookupFile (removeFile fs n) m = lookupFile fs m := by
  induction fs with
  | nil => simp [removeFile, lookupFile]
  | cons a t ih =>
    have hnm : ¬ n = m := fun e => h e.symm
    by_cases ha : a.1 = n
    · simpa [removeFile, List.filter_cons, ha, lookupFile, hnm] using ih
    · by_cases hm : a.1 = m
      · simp [removeFile, List.filter_cons, ha, lookupFile, hm, h]
      · simpa [removeFile, List.filter_cons, ha, lookupFile, hm] using ih

theorem lookupFile_writeFile_self {κ β : Type} [DecidableEq κ]
    (fs : List (κ × β)) (n : κ) (c : β) :
    lookupFile (writeFile fs n c) n = some c := by
  induction fs with
  | nil => simp [writeFile, lookupFile]
  | cons a t ih =>
    by_cases h : a.1 = n
    · simpa [writeFile, List.filter_cons, h] using ih
    · simpa [writeFile, List.filter_cons, h, lookupFile] using ih

theorem lookupFile_writeFile_ne {κ β : Type} [DecidableEq κ]
    (fs : List (κ × β)) (n m : κ) (c : β) (h : m ≠ n) :
    lookupFile (writeFile fs n c) m = lookupFile fs m := by
  induction fs with
  | nil => simp [writeFile, lookupFile, Ne.symm h]
  | cons a t ih =>
    have hnm : ¬ n = m := fun e => h e.symm
    by_cases ha : a.1 = n
    · simpa [writeFile, List.filter_cons, ha, lookupFile, hnm] using ih
    · by_cases hm : a.1 = m
      · simp [writeFile, List.filter_cons, ha, lookupFile, hm, h]
      · simpa [writeFile, List.filter_cons, ha, lookupFile, hm] using ih

theorem nsOf_save_version_self (st : Store) (status name : String)
    (ts : Nat) (c : String) :
    nsOf (save_version st status name ts c) status (stem name) =
      save_version_ns (nsOf st status (stem name)) ts c := by
  simp [save_version, nsOf, lookupFile_writeFile_self]

theorem nsOf_save_version_ne (st : Store) (status name : String)
    (ts : Nat) (c : String) (status' slug' : String)
    (h : (status', slug') ≠ (status, stem name)) :
    nsOf (save_version st status name ts c) status' slug' =
      nsOf st status' slug' := by
  simp [save_version, nsOf, lookupFile_writeFile_ne _ _ _ _ h]

/-! ## Version retention -/

/-- One fresh save on top of the three-newest suffix of an increasing
history produces the three-newest suffix of the extended history. -/
theorem save_version_ns_step (l : List (Nat × String)) (ts : Nat) (c : String)
    (hl : (l.map Prod.fst).Pairwise (· < ·))
    (hts : ∀ a ∈ l.map Prod.fst, a < ts) :
    save_version_ns (l.drop (l.length - 3)) ts c =
      (l ++ [(ts, c)]).drop (l.length + 1 - 3) := by
  have hsub : List.Sublist (l.drop (l.length - 3)) l := List.drop_sublist _ _
  have hstkeys : ∀ p ∈ l.drop (l.length - 3), p.1 < ts := fun p hp =>
    hts p.1 (List.mem_map_of_mem Prod.fst (hsub.mem hp))
  have hfilter :
      (l.drop (l.length - 3)).filter (fun p => p.1 ≠ ts) =
        l.drop (l.length - 3) :=
    List.filter_eq_self.mpr fun p hp => by
      simpa using Nat.ne_of_lt (hstkeys p hp)
  have hmapdrop : (l.drop (l.length - 3)).map Prod.fst =
      (l.map Prod.fst).drop (l.length - 3) := List.map_drop _ _ _
  have hpw : ((l.drop (l.length - 3)).map Prod.fst).Pairwise (· < ·) := by
    rw [hmapdrop]; exact hl.sublist (List.drop_sublist _ _)
  have hsorted :
      List.Sorted (· ≤ ·) ((l.drop (l.length - 3)).map Prod.fst ++ [ts]) := by
    rw [List.Sorted, List.pairwise_append]
    refine ⟨hpw.imp fun hab => Nat.le_of_lt hab, List.pairwise_singleton _ _, ?_⟩
    intro a ha b hb
    rw [List.mem_singleton] at hb
    subst hb
    rw [hmapdrop] at ha
    exact Nat.le_of_lt (hts a ((List.drop_sublist _ _).mem ha))
  have hsort :
      List.insertionSort (· ≤ ·)
          ((l.drop (l.length - 3)).map Prod.fst ++ [ts]) =
        (l.drop (l.length - 3)).map Prod.fst ++ [ts] :=
    hsorted.insertionSort_eq
  have hstlen : (l.drop (l.length - 3)).length = l.length - (l.length - 3) :=
    List.length_drop _ _
  by_cases hlen : 3 ≤ l.length
  · -- the namespace is full: the oldest of the four files is pruned
    have h3 : (l.drop (l.length - 3)).length = 3 := by omega
    obtain ⟨p, q, r, hpqr⟩ := List.length_eq_three.mp h3
    have hks : [p.1, q.1, r.1].Pairwise (· < ·) := by
      have := hpw; rw [hpqr] at this; simpa using this
    have hkts : p.1 < ts ∧ q.1 < ts ∧ r.1 < ts := by
      refine ⟨hstkeys p ?_, hstkeys q ?_, hstkeys r ?_⟩ <;> simp [hpqr]
    obtain ⟨⟨hpq, hpr⟩, hqr⟩ : (p.1 < q.1 ∧ p.1 < r.1) ∧ q.1 < r.1 := by
      simpa using hks
    rw [hpqr] at hfilter hsort ⊢
    simp only [save_version_ns, writeFile, hfilter]
    rw [show ([p, q, r] ++ [(ts, c)]).map Prod.fst =
      [p, q, r].map Prod.fst ++ [ts] by simp]
    rw [hsort]
    have hne1 : p.1 ≠ q.1 := Nat.ne_of_lt hpq
    have hne2 : p.1 ≠ r.1 := Nat.ne_of_lt hpr
    have hne3 : p.1 ≠ ts := Nat.ne_of_lt hkts.1
    have hdrop2 : l.drop (l.length - 2) = [q, r] := by
      have : l.drop (l.length - 2) = (l.drop (l.length - 3)).drop 1 := by
        rw [List.drop_drop]
        congr 1
        omega
      rw [this, hpqr]
      rfl
    have hrhs : (l ++ [(ts, c)]).drop (l.length + 1 - 3) =
        [q, r, (ts, c)] := by
      have hle : l.length + 1 - 3 ≤ l.length := by omega
      rw [show l.length + 1 - 3 = l.length - 2 by omega,
        List.drop_append_of_le_length (by omega), hdrop2]
      rfl
    rw [hrhs]
    simp [List.filter_cons, List.contains, hne1, hne2, hne3]
  · -- fewer than three prior versions: nothing is pruned
    have h0 : l.length - 3 = 0 := by omega
    rw [h0] at hfilter hsort ⊢
    simp only [List.drop_zero] at hfilter hsort ⊢
    simp only [save_version_ns, writeFile, hfilter]
    rw [show (l ++ [(ts, c)]).map Prod.fst = l.map Prod.fst ++ [ts] by simp]
    rw [hsort]
    have hlt : ¬ 3 < (l.map Prod.fst ++ [ts]).length := by
      simp only [List.length_append, List.length_map, List.length_singleton]
      omega
    rw [if_neg hlt]
    rw [show l.length + 1 - 3 = 0 by omega, List.drop_zero]

/-- Folding fresh, strictly increasing saves from an empty namespace
always leaves exactly the three most recent saves (or all of them while
there are at most three). -/
theorem runSaves_eq (saves : List (Nat × String))
    (h : (saves.map Prod.fst).Pairwise (· < ·)) :
    runSaves saves = saves.drop (saves.length - 3) := by
  induction saves using List.reverseRecOn with
  | nil => rfl
  | append_singleton l p ih =>
    have hmap : (l ++ [p]).map Prod.fst = l.map Prod.fst ++ [p.1] := by simp
    rw [hmap, List.pairwise_append] at h
    obtain ⟨hl, -, hcross⟩ := h
    have hts : ∀ a ∈ l.map Prod.fst, a < p.1 := fun a ha =>
      hcross a ha p.1 (List.mem_singleton_self _)
    have hfold : runSaves (l ++ [p]) =
        save_version_ns (runSaves l) p.1 p.2 := by
      simp [runSaves, List.foldl_append]
    rw [hfold, ih hl, save_version_ns_step l p.1 p.2 hl hts]
    simp [List.length_append]

/-! ## Claim theorems -/

/-- C8: `search` with an empty query string returns the empty result
sequence regardless of the contents of the published corpus. -/
theorem c8_search_empty_query (md : List (String × String))
    (nb : List (String × List Cell)) : search md nb "" = [] := by
  simp [search]

/-- C7: the preview action of both the create endpoint and the update
endpoint leaves the store (posts, drafts and versions) unchanged. -/
theorem c7_preview_pure (st : Store)
    (status name title content tags category : String) (ts : Nat) :
    admin_new_post_post st title content tags category "preview" ts = st ∧
    admin_edit_post_post st status name title content tags category
      "preview" ts = st := by
  constructor <;> simp [admin_new_post_post, admin_edit_post_post]

/-- C4 (counterexample): the claim asserts
`slugify "Hello, World!" = "hello-world"`, but the code maps the comma
and the space each to their own dash and does not collapse runs, so the
result is `"hello--world"`. -/
theorem c4_counterexample : slugify "Hello, World!" ≠ "hello-world" := by
  decide

/-- C4 (amended): `slugify "Hello, World!" = "hello--world"` (consecutive
separators are preserved) and `slugify "  Already-slug  " = "already-slug"`
(leading/trailing separators are trimmed). -/
theorem c4_slugify_examples :
    slugify "Hello, World!" = "hello--world" ∧
    slugify "  Already-slug  " = "already-slug" := by
  constructor <;> decide

/-- C9: deleting a post removes only that file: the version store is
untouched, the other collection is untouched, and within the target
collection only the named file disappears. -/
theorem c9_delete_frame (st : Store) (status name other : String)
    (h : other ≠ name) :
    (admin_delete_post st status name).versions = st.versions ∧
    (status = "draft" →
      (admin_delete_post st status name).published = st.published ∧
      lookupFile (admin_delete_post st status name).drafts name = none ∧
      lookupFile (admin_delete_post st status name).drafts other =
        lookupFile st.drafts other) ∧
    (¬ status = "draft" →
      (admin_delete_post st status name).drafts = st.drafts ∧
      lookupFile (admin_delete_post st status name).published name = none ∧
      lookupFile (admin_delete_post st status name).published other =
        lookupFile st.published other) := by
  by_cases hs : status = "draft"
  · by_cases hl : (lookupFile st.drafts name).isSome
    · simp [admin_delete_post, hs, collOf, removeFrom, hl,
        lookupFile_removeFile_self, lookupFile_removeFile_ne _ _ _ h]
    · have hn : lookupFile st.drafts name = none := by
        cases hx : lookupFile st.drafts name
        · rfl
        · simp [hx] at hl
      simp [admin_delete_post, hs, collOf, hl, hn]
  · by_cases hl : (lookupFile st.published name).isSome
    · simp [admin_delete_post, hs, collOf, removeFrom, hl,
        lookupFile_removeFile_self, lookupFile_removeFile_ne _ _ _ h]
    · have hn : lookupFile st.published name = none := by
        cases hx : lookupFile st.published name
        · rfl
        · simp [hx] at hl
      simp [admin_delete_post, hs, collOf, hl, hn]

/-- C2: after more than three sequential saves (strictly increasing
timestamps: `datetime.now()` at second granularity, one save after
another) into one `(state, slug)` namespace, exactly three version files
remain, and they are the three most recently created ones. -/
theorem c2_retention (saves : List (Nat × String))
    (hsorted : (saves.map Prod.fst).Pairwise (· < ·))
    (hlen : 3 < saves.length) :
    runSaves saves = saves.drop (saves.length - 3) ∧
    (runSaves saves).length = 3 := by
  refine ⟨runSaves_eq saves hsorted, ?_⟩
  rw [runSaves_eq saves hsorted, List.length_drop]
  omega

/-- C2 (witness): four saves at timestamps 1 to 4 leave exactly the last
three versions. -/
theorem c2_retention_witness :
    runSaves [(1, "a"), (2, "b"), (3, "c"), (4, "d")] =
      [(2, "b"), (3, "c"), (4, "d")] ∧
    (runSaves [(1, "a"), (2, "b"), (3, "c"), (4, "d")]).length = 3 :=
  c2_retention [(1, "a"), (2, "b"), (3, "c"), (4, "d")]
    (by decide) (by decide)

/-- C9 (witness): a concrete instantiation of `c9_delete_frame`: deleting
`a.md` from the published collection leaves its version namespace and the
drafts collection intact and removes only `a.md`. -/
theorem c9_delete_frame_witness :
    (admin_delete_post ⟨[("a.md", "x"), ("b.md", "y")], [],
        [(("published", "a"), [(1, "v")])]⟩ "published" "a.md").versions =
      [(("published", "a"), [(1, "v")])] ∧
    lookupFile (admin_delete_post ⟨[("a.md", "x"), ("b.md", "y")], [],
        [(("published", "a"), [(1, "v")])]⟩ "published" "a.md").published
      "b.md" = some "y" := by
  have h := c9_delete_frame
    ⟨[("a.md", "x"), ("b.md", "y")], [], [(("published", "a"), [(1, "v")])]⟩
    "published" "a.md" "b.md" (by decide)
  exact ⟨h.1, (h.2.2 (by decide)).2.2⟩

/-- A maximum of a `≤`-sorted list lies in every nonempty suffix. -/
theorem mem_drop_of_max (s : List Nat) (x k : Nat)
    (hs : List.Sorted (· ≤ ·) s) (hx : x ∈ s) (hmax : ∀ y ∈ s, y ≤ x)
    (hk : k < s.length) : x ∈ s.drop k := by
  have hx2 : x ∈ s.take k ++ s.drop k := by
    rw [List.take_append_drop]; exact hx
  rcases List.mem_append.mp hx2 with h | h
  · have hne : s.drop k ≠ [] := by
      intro he
      have hl := List.length_drop k s
      rw [he] at hl
      simp at hl
      omega
    obtain ⟨b, hb⟩ := List.exists_mem_of_ne_nil _ hne
    have hs2 : List.Sorted (· ≤ ·) (s.take k ++ s.drop k) := by
      rw [List.take_append_drop]; exact hs
    have hxb : x ≤ b :=
      (List.pairwise_append.mp hs2).2.2 x h b hb
    have hbx : b ≤ x := hmax b ((List.drop_sublist _ _).mem hb)
    have : b = x := Nat.le_antisymm hbx hxb
    exact this ▸ hb
  · exact h

/-- A snapshot with a timestamp fresher than every existing version in the
namespace survives the retention pruning. -/
theorem mem_save_version_ns_self (files : List (Nat × String)) (ts : Nat)
    (c : String) (hfresh : ∀ a ∈ files.map Prod.fst, a < ts) :
    (ts, c) ∈ save_version_ns files ts c := by
  have hmem' : (ts, c) ∈ writeFile files ts c := by simp [writeFile]
  have hkey : ts ∈ (writeFile files ts c).map Prod.fst :=
    List.mem_map_of_mem Prod.fst hmem'
  have hmax : ∀ a ∈ (writeFile files ts c).map Prod.fst, a ≤ ts := by
    intro a ha
    rw [writeFile, List.map_append] at ha
    rcases List.mem_append.mp ha with ha | ha
    · obtain ⟨p, hp, rfl⟩ := List.mem_map.mp ha
      have hpf : p ∈ files := (List.filter_sublist _).mem hp
      exact Nat.le_of_lt (hfresh p.1 (List.mem_map_of_mem Prod.fst hpf))
    · simp at ha
      omega
  simp only [save_version_ns]
  split
  · next hgt =>
    refine List.mem_filter.mpr ⟨hmem', ?_⟩
    have hperm := List.perm_insertionSort (· ≤ ·)
      ((writeFile files ts c).map Prod.fst)
    have hts_names : ts ∈ List.insertionSort (· ≤ ·)
        ((writeFile files ts c).map Prod.fst) := hperm.mem_iff.mpr hkey
    have hsorted := List.sorted_insertionSort (· ≤ ·)
      ((writeFile files ts c).map Prod.fst)
    have hmax' : ∀ y ∈ List.insertionSort (· ≤ ·)
        ((writeFile files ts c).map Prod.fst), y ≤ ts :=
      fun y hy => hmax y (hperm.mem_iff.mp hy)
    have hlen : 0 < (List.insertionSort (· ≤ ·)
        ((writeFile files ts c).map Prod.fst)).length :=
      List.length_pos_of_mem hts_names
    have := mem_drop_of_max _ ts
      ((List.insertionSort (· ≤ ·)
        ((writeFile files ts c).map Prod.fst)).length - 3)
      hsorted hts_names hmax' (by omega)
    simpa using this
  · next hle => exact hmem'

/-- C3: publishing an existing draft (update with `action = "publish"` and
a title whose slug still matches the draft's filename) leaves no file at
the draft path, a file at the published path holding the newly encoded
metadata+body, and the pre-publish draft content stored in the draft's
version namespace; when the snapshot timestamp is fresher than all
existing snapshots the snapshot is present afterwards. -/
theorem c3_publish_draft (st : Store)
    (name title content tags category old : String) (ts : Nat)
    (hdraft : lookupFile st.drafts name = some old)
    (htitle : slugify title ++ ".md" = name)
    (hfresh : ∀ a ∈ (nsOf st "draft" (stem name)).map Prod.fst, a < ts) :
    lookupFile (admin_edit_post_post st "draft" name title content tags
      category "publish" ts).drafts name = none ∧
    lookupFile (admin_edit_post_post st "draft" name title content tags
      category "publish" ts).published name =
      some (build_full content tags category) ∧
    nsOf (admin_edit_post_post st "draft" name title content tags category
        "publish" ts) "draft" (stem name) =
      save_version_ns (nsOf st "draft" (stem name)) ts old ∧
    (ts, old) ∈ nsOf (admin_edit_post_post st "draft" name title content
      tags category "publish" ts) "draft" (stem name) := by
  have hresult : admin_edit_post_post st "draft" name title content tags
      category "publish" ts =
      Store.mk
        (writeFile st.published name (build_full content tags category))
        (removeFile st.drafts name)
        (writeFile st.versions ("draft", stem name)
          (save_version_ns (nsOf st "draft" (stem name)) ts old)) := by
    simp [admin_edit_post_post, hdraft, htitle, writeTo, removeFrom, collOf,
      save_version]
  rw [hresult]
  have hns : nsOf (Store.mk
      (writeFile st.published name (build_full content tags category))
      (removeFile st.drafts name)
      (writeFile st.versions ("draft", stem name)
        (save_version_ns (nsOf st "draft" (stem name)) ts old)))
      "draft" (stem name) =
      save_version_ns (nsOf st "draft" (stem name)) ts old := by
    simp [nsOf, lookupFile_writeFile_self]
  refine ⟨lookupFile_removeFile_self _ _, lookupFile_writeFile_self _ _ _,
    hns, ?_⟩
  rw [hns]
  exact mem_save_version_ns_self _ _ _ hfresh

/-- C3 (witness): publishing the draft `my-post.md` (title `My Post`,
fresh timestamp 1) concretely. -/
theorem c3_publish_draft_witness :
    lookupFile (admin_edit_post_post ⟨[], [("my-post.md", "old")], []⟩
      "draft" "my-post.md" "My Post" "body" "a, b" "cat" "publish"
      1).drafts "my-post.md" = none ∧
    lookupFile (admin_edit_post_post ⟨[], [("my-post.md", "old")], []⟩
      "draft" "my-post.md" "My Post" "body" "a, b" "cat" "publish"
      1).published "my-post.md" = some (build_full "body" "a, b" "cat") ∧
    nsOf (admin_edit_post_post ⟨[], [("my-post.md", "old")], []⟩ "draft"
        "my-post.md" "My Post" "body" "a, b" "cat" "publish" 1) "draft"
      (stem "my-post.md") =
      save_version_ns (nsOf (⟨[], [("my-post.md", "old")], []⟩ : Store)
        "draft" (stem "my-post.md")) 1 "old" ∧
    (1, "old") ∈ nsOf (admin_edit_post_post ⟨[], [("my-post.md", "old")],
      []⟩ "draft" "my-post.md" "My Post" "body" "a, b" "cat" "publish" 1)
      "draft" (stem "my-post.md") :=
  c3_publish_draft ⟨[], [("my-post.md", "old")], []⟩ "my-post.md"
    "My Post" "body" "a, b" "cat" "old" 1 (by decide) (by decide)
    (by decide)

/-- C6: restoring a version fails with NotFound (modeled as
`Except.error`) when the version file is absent; when it exists and a
file is present at the destination, the endpoint first snapshots the
current content and then overwrites the destination with the version's
content, so that (with a fresh snapshot timestamp) a new version appears
in the history. -/
theorem c6_restore_version (st : Store) (status name : String)
    (version ts : Nat) :
    (lookupFile (nsOf st status (stem name)) version = none →
      admin_post_version_restore st status name version ts =
        Except.error ()) ∧
    (∀ vcontent cur,
      lookupFile (nsOf st status (stem name)) version = some vcontent →
      lookupFile (collOf st (status = "draft")) name = some cur →
      (∀ a ∈ (nsOf st status (stem name)).map Prod.fst, a < ts) →
      admin_post_version_restore st status name version ts =
        Except.ok (writeTo (save_version st status name ts cur)
          (status = "draft") name vcontent) ∧
      lookupFile (collOf (writeTo (save_version st status name ts cur)
        (status = "draft") name vcontent) (status = "draft")) name =
        some vcontent ∧
      nsOf (writeTo (save_version st status name ts cur)
          (status = "draft") name vcontent) status (stem name) =
        save_version_ns (nsOf st status (stem name)) ts cur ∧
      (ts, cur) ∈ nsOf (writeTo (save_version st status name ts cur)
        (status = "draft") name vcontent) status (stem name)) := by
  constructor
  · intro h
    simp [admin_post_version_restore, h]
  · intro vcontent cur hv hcur hfresh
    have hns : nsOf (writeTo (save_version st status name ts cur)
        (status = "draft") name vcontent) status (stem name) =
        save_version_ns (nsOf st status (stem name)) ts cur := by
      by_cases hs : status = "draft" <;>
        simp [writeTo, hs, save_version, nsOf, lookupFile_writeFile_self]
    refine ⟨?_, ?_, hns, hns ▸ mem_save_version_ns_self _ _ _ hfresh⟩
    · by_cases hs : status = "draft" <;>
        simp_all [admin_post_version_restore, writeTo, collOf, save_version]
    · by_cases hs : status = "draft" <;>
        simp [writeTo, collOf, hs, save_version,
          lookupFile_writeFile_self]

/-- C6 (witness): restoring a missing version errors; restoring version 2
of `p.md` over the current published content snapshots `cur` (timestamp
9) and overwrites the post with `v2`. -/
theorem c6_restore_version_witness :
    admin_post_version_restore ⟨[], [], []⟩ "published" "p.md" 1 2 =
      Except.error () ∧
    admin_post_version_restore
        ⟨[("p.md", "cur")], [], [(("published", "p"), [(2, "v2")])]⟩
        "published" "p.md" 2 9 =
      Except.ok (writeTo (save_version
        ⟨[("p.md", "cur")], [], [(("published", "p"), [(2, "v2")])]⟩
        "published" "p.md" 9 "cur") ("published" = "draft") "p.md"
        "v2") ∧
    (9, "cur") ∈ nsOf (writeTo (save_version
      ⟨[("p.md", "cur")], [], [(("published", "p"), [(2, "v2")])]⟩
      "published" "p.md" 9 "cur") ("published" = "draft") "p.md" "v2")
      "published" (stem "p.md") := by
  refine ⟨(c6_restore_version ⟨[], [], []⟩ "published" "p.md" 1 2).1
    (by decide), ?_, ?_⟩
  · exact ((c6_restore_version
      ⟨[("p.md", "cur")], [], [(("published", "p"), [(2, "v2")])]⟩
      "published" "p.md" 2 9).2 "v2" "cur" (by decide) (by decide)
      (by decide)).1
  · exact ((c6_restore_version
      ⟨[("p.md", "cur")], [], [(("published", "p"), [(2, "v2")])]⟩
      "published" "p.md" 2 9).2 "v2" "cur" (by decide) (by decide)
      (by decide)).2.2.2

theorem char_toNat_ofNat (n : Nat) (h : n.isValidChar) :
    (Char.ofNat n).toNat = n := by
  simp [Char.ofNat, h, Char.ofNatAux, Char.toNat, UInt32.toNat,
    UInt32.ofNatCore]

theorem toLower_toLower (c : Char) : c.toLower.toLower = c.toLower := by
  unfold Char.toLower
  by_cases h : c.toNat ≥ 65 ∧ c.toNat ≤ 90
  · rw [if_pos h]
    have hv : (c.toNat + 32).isValidChar := by
      left
      omega
    rw [char_toNat_ofNat _ hv, if_neg]
    intro hcon
    omega
  · rw [if_neg h, if_neg h]

theorem slug_step_fix (a : Char) :
    (if (Char.toLower (if (Char.toLower a).isAlphanum then Char.toLower a
        else '-')).isAlphanum then
      Char.toLower (if (Char.toLower a).isAlphanum then Char.toLower a
        else '-')
    else '-') =
    (if (Char.toLower a).isAlphanum then Char.toLower a else '-') := by
  by_cases hd : (Char.toLower a).isAlphanum
  · rw [if_pos hd, toLower_toLower, if_pos hd]
  · rw [if_neg hd]
    decide

theorem map_eq_self_of_fix {α : Type} {f : α → α} (l : List α)
    (h : ∀ c ∈ l, f c = c) : l.map f = l := by
  induction l with
  | nil => rfl
  | cons a t ih =>
    rw [List.map_cons, h a (List.mem_cons_self a t),
      ih fun c hc => h c (List.mem_cons_of_mem a hc)]

theorem head_dropWhile_false (p : Char → Bool) (l : List Char) (a : Char)
    (h : (l.dropWhile p).head? = some a) : p a = false := by
  have := List.head?_dropWhile_not p l
  rw [h] at this
  simpa using this

theorem dropWhile_eq_self_of_head (p : Char → Bool) (l : List Char)
    (h : ∀ a, l.head? = some a → p a = false) : l.dropWhile p = l := by
  cases l with
  | nil => rfl
  | cons a t =>
    rw [List.dropWhile_cons, if_neg]
    simp [h a rfl]

theorem mem_dropAround {p : Char → Bool} {l : List Char} {c : Char}
    (h : c ∈ dropAround p l) : c ∈ l := by
  unfold dropAround at h
  rw [List.mem_reverse] at h
  have h2 : c ∈ (l.dropWhile p).reverse := (List.dropWhile_sublist _).mem h
  rw [List.mem_reverse] at h2
  exact (List.dropWhile_sublist _).mem h2

theorem dropAround_idem (p : Char → Bool) (l : List Char) :
    dropAround p (dropAround p l) = dropAround p l := by
  have hout : dropAround p l =
      ((l.dropWhile p).reverse.dropWhile p).reverse := rfl
  have hsplit : l.dropWhile p =
      ((l.dropWhile p).reverse.dropWhile p).reverse ++
        ((l.dropWhile p).reverse.takeWhile p).reverse := by
    calc l.dropWhile p = (l.dropWhile p).reverse.reverse :=
          (List.reverse_reverse _).symm
      _ = ((l.dropWhile p).reverse.takeWhile p ++
            (l.dropWhile p).reverse.dropWhile p).reverse := by
          rw [List.takeWhile_append_dropWhile]
      _ = ((l.dropWhile p).reverse.dropWhile p).reverse ++
            ((l.dropWhile p).reverse.takeWhile p).reverse :=
          List.reverse_append _ _
  have hout_head : ∀ a, (dropAround p l).head? = some a → p a = false := by
    intro a ha
    have hne : dropAround p l ≠ [] := by
      intro he
      rw [he] at ha
      cases ha
    have hh : (l.dropWhile p).head? = (dropAround p l).head? := by
      rw [hsplit, ← hout, List.head?_append_of_ne_nil _ hne]
    exact head_dropWhile_false p l a (by rw [hh]; exact ha)
  have h1 : (dropAround p l).dropWhile p = dropAround p l :=
    dropWhile_eq_self_of_head p _ hout_head
  have hrev : (dropAround p l).reverse = (l.dropWhile p).reverse.dropWhile p := by
    rw [hout, List.reverse_reverse]
  have h2 : ((l.dropWhile p).reverse.dropWhile p).dropWhile p =
      (l.dropWhile p).reverse.dropWhile p :=
    dropWhile_eq_self_of_head p _ fun a ha =>
      head_dropWhile_false p _ a ha
  show (((dropAround p l).dropWhile p).reverse.dropWhile p).reverse =
    dropAround p l
  rw [h1, hrev, h2, ← hrev, List.reverse_reverse]

theorem c10_slugify_idempotent (t : String) :
    slugify (slugify t) = slugify t := by
  unfold slugify
  congr 1
  rw [List.map_map]
  have hfix : ∀ c ∈ dropAround (fun c => c = '-')
      ((t.data.map Char.toLower).map
        (fun c => if c.isAlphanum then c else '-')),
      ((fun c => if c.isAlphanum then c else '-') ∘ Char.toLower) c = c := by
    intro c hc
    rw [List.map_map] at hc
    obtain ⟨a, ha, rfl⟩ := List.mem_map.mp (mem_dropAround hc)
    simpa [Function.comp] using slug_step_fix a
  rw [map_eq_self_of_fix _ hfix]
  exact dropAround_idem _ _

theorem splitlinesAux_nil (acc : List Char) :
    splitlinesAux [] acc = if acc.isEmpty then [] else [acc.reverse] := rfl

theorem splitlinesAux_cons_newline (rest acc : List Char) :
    splitlinesAux ('\n' :: rest) acc = acc.reverse :: splitlinesAux rest [] :=
  rfl

theorem splitlinesAux_cons_plain (c : Char) (rest acc : List Char)
    (h1 : c ≠ '\n') (h2 : c ≠ '\r') :
    splitlinesAux (c :: rest) acc = splitlinesAux rest (c :: acc) := by
  rw [splitlinesAux.eq_def]
  split <;> simp_all

theorem splitlinesAux_cons_cr (rest acc : List Char)
    (hg : ∀ r, rest ≠ '\n' :: r) :
    splitlinesAux ('\r' :: rest) acc =
      acc.reverse :: splitlinesAux rest [] := by
  rw [splitlinesAux.eq_def]
  split <;> try simp_all
  rename_i h1 h2 heq
  exact absurd heq.1.symm h2

theorem splitlinesAux_ne_nil (cs acc : List Char) (h : cs ≠ [] ∨ acc ≠ []) :
    splitlinesAux cs acc ≠ [] := by
  induction cs, acc using splitlinesAux.induct with
  | case1 acc hacc =>
    rcases h with h | h
    · exact absurd rfl h
    · exact absurd (List.isEmpty_iff.mp hacc) h
  | case2 acc hacc =>
    rw [splitlinesAux_nil, if_neg (by simpa using hacc)]
    exact List.cons_ne_nil _ _
  | case3 rest acc ih => exact List.cons_ne_nil _ _
  | case4 rest acc ih =>
    rw [splitlinesAux_cons_newline]
    exact List.cons_ne_nil _ _
  | case5 rest acc hg ih =>
    rw [splitlinesAux_cons_cr rest acc (fun r he => hg r he)]
    exact List.cons_ne_nil _ _
  | case6 c rest acc hg h2 h3 ih =>
    rw [splitlinesAux_cons_plain c rest acc (fun e => h2 e) (fun e => h3 e)]
    exact ih (Or.inr (List.cons_ne_nil _ _))

theorem joinWith_cons_ne_nil (sep x : List Char) (xs : List (List Char))
    (h : xs ≠ []) : joinWith sep (x :: xs) = x ++ sep ++ joinWith sep xs := by
  cases xs with
  | nil => exact absurd rfl h
  | cons y t => rfl

theorem joinWith_splitlinesAux (cs acc : List Char) (hr : '\r' ∉ cs)
    (hl : cs.getLast? ≠ some '\n') :
    joinWith ['\n'] (splitlinesAux cs acc) = acc.reverse ++ cs := by
  induction cs, acc using splitlinesAux.induct with
  | case1 acc hacc =>
    rw [splitlinesAux_nil, if_pos (by simpa using hacc)]
    simp [joinWith, List.isEmpty_iff.mp hacc]
  | case2 acc hacc =>
    rw [splitlinesAux_nil, if_neg (by simpa using hacc)]
    simp [joinWith]
  | case3 rest acc ih => simp at hr
  | case4 rest acc ih =>
    have hrest : rest ≠ [] := by
      intro he
      subst he
      simp at hl
    have hne : splitlinesAux rest [] ≠ [] :=
      splitlinesAux_ne_nil _ _ (Or.inl hrest)
    rw [splitlinesAux_cons_newline, joinWith_cons_ne_nil _ _ _ hne]
    rw [ih (fun hm => hr (List.mem_cons_of_mem _ hm)) ?hlast]
    · simp
    case hlast =>
      cases rest with
      | nil => exact absurd rfl hrest
      | cons d t =>
        rw [← List.getLast?_cons_cons]
        exact hl
  | case5 rest acc hg ih => simp at hr
  | case6 c rest acc hg h2 h3 ih =>
    rw [splitlinesAux_cons_plain c rest acc (fun e => h2 e) (fun e => h3 e)]
    rw [ih (fun hm => hr (List.mem_cons_of_mem _ hm)) ?hlast2]
    · simp
    case hlast2 =>
      cases rest with
      | nil => simp
      | cons d t =>
        rw [← List.getLast?_cons_cons]
        exact hl

theorem splitlinesAux_line (l1 l2 acc : List Char) (h1 : '\n' ∉ l1)
    (h2 : '\r' ∉ l1) :
    splitlinesAux (l1 ++ '\n' :: l2) acc =
      (acc.reverse ++ l1) :: splitlinesAux l2 [] := by
  induction l1 generalizing acc with
  | nil => simpa using splitlinesAux_cons_newline l2 acc
  | cons c t ih =>
    have hc1 : c ≠ '\n' := fun e => h1 (e ▸ List.mem_cons_self c t)
    have hc2 : c ≠ '\r' := fun e => h2 (e ▸ List.mem_cons_self c t)
    rw [List.cons_append, splitlinesAux_cons_plain c _ _ hc1 hc2,
      ih (c :: acc) (fun hm => h1 (List.mem_cons_of_mem c hm))
        (fun hm => h2 (List.mem_cons_of_mem c hm))]
    simp

theorem splitlinesAux_head (cs acc : List Char) (hr : '\r' ∉ cs)
    (h : cs ≠ [] ∨ acc ≠ []) :
    ∃ ls, splitlinesAux cs acc =
      (acc.reverse ++ cs.takeWhile (fun c => c ≠ '\n')) :: ls := by
  induction cs, acc using splitlinesAux.induct with
  | case1 acc hacc =>
    rcases h with h | h
    · exact absurd rfl h
    · exact absurd (List.isEmpty_iff.mp hacc) h
  | case2 acc hacc =>
    refine ⟨[], ?_⟩
    rw [splitlinesAux_nil, if_neg (by simpa using hacc)]
    simp
  | case3 rest acc ih => simp at hr
  | case4 rest acc ih =>
    refine ⟨splitlinesAux rest [], ?_⟩
    rw [splitlinesAux_cons_newline]
    simp
  | case5 rest acc hg ih => simp at hr
  | case6 c rest acc hg h2 h3 ih =>
    have hc1 : c ≠ '\n' := fun e => h2 e
    have hc2 : c ≠ '\r' := fun e => h3 e
    obtain ⟨ls, hls⟩ := ih (fun hm => hr (List.mem_cons_of_mem c hm))
      (Or.inr (List.cons_ne_nil _ _))
    refine ⟨ls, ?_⟩
    rw [splitlinesAux_cons_plain c rest acc hc1 hc2, hls]
    simp [List.takeWhile_cons, hc1]

theorem map_mk_data (xs : List (List Char)) :
    (xs.map fun l => (⟨l⟩ : String)).map String.data = xs := by
  induction xs with
  | nil => rfl
  | cons a t ih => simp [ih]

theorem pyJoin_splitlines (s : String) (hr : '\r' ∉ s.data)
    (hl : s.data.getLast? ≠ some '\n') :
    pyJoin "\n" (splitlines s) = s := by
  show String.mk _ = s
  rw [show splitlines s = (splitlinesAux s.data []).map fun l =>
    (⟨l⟩ : String) from rfl, map_mk_data]
  rw [show ("\n" : String).data = ['\n'] from rfl]
  rw [joinWith_splitlinesAux s.data [] hr hl]
  rfl

theorem isPrefixOf_append_true (pat a b : List Char)
    (h : pat.isPrefixOf a = true) : pat.isPrefixOf (a ++ b) = true := by
  induction pat generalizing a with
  | nil => cases hab : a ++ b <;> simp [List.isPrefixOf]
  | cons p pt ih =>
    cases a with
    | nil => simp [List.isPrefixOf] at h
    | cons x xs =>
      simp only [List.isPrefixOf, List.cons_append, Bool.and_eq_true,
        beq_iff_eq] at h ⊢
      exact ⟨h.1, ih xs h.2⟩

theorem dropWhile_eq_self_parts (p : Char → Bool) (l : List Char)
    (h : dropAround p l = l) :
    l.dropWhile p = l ∧ l.reverse.dropWhile p = l.reverse := by
  have h1 : (l.dropWhile p).length ≤ l.length :=
    (List.dropWhile_sublist _).length_le
  have h2 : ((l.dropWhile p).reverse.dropWhile p).length ≤
      (l.dropWhile p).length := by
    have := (List.dropWhile_sublist (l := (l.dropWhile p).reverse) p).length_le
    simpa using this
  have hlen : (dropAround p l).length = l.length := by rw [h]
  have hlen2 : ((l.dropWhile p).reverse.dropWhile p).length = l.length := by
    simpa [dropAround] using hlen
  have he1 : l.dropWhile p = l :=
    (List.dropWhile_sublist p).eq_of_length (by omega)
  refine ⟨he1, ?_⟩
  have he2 : (l.dropWhile p).reverse.dropWhile p = (l.dropWhile p).reverse :=
    (List.dropWhile_sublist p).eq_of_length (by simp; omega)
  rw [he1] at he2
  exact he2

theorem dropAround_cons_space (l : List Char)
    (h : dropAround Char.isWhitespace l = l) :
    dropAround Char.isWhitespace (' ' :: l) = l := by
  obtain ⟨h1, h2⟩ := dropWhile_eq_self_parts _ l h
  unfold dropAround
  rw [List.dropWhile_cons, if_pos (by decide), h1, h2, List.reverse_reverse]

theorem startswith_of_takeWhile (pat cs : List Char)
    (h : pat.isPrefixOf
      ((cs.takeWhile fun c => c ≠ '\n').map Char.toLower) = true) :
    pat.isPrefixOf (cs.map Char.toLower) = true := by
  have hdec : cs.map Char.toLower =
      (cs.takeWhile fun c => c ≠ '\n').map Char.toLower ++
        (cs.dropWhile fun c => c ≠ '\n').map Char.toLower := by
    rw [← List.map_append, List.takeWhile_append_dropWhile]
  rw [hdec]
  exact isPrefixOf_append_true _ _ _ h

theorem parseLoop_break (l0 : String) (ls tags : List String) (cat : String)
    (h1 : pyStartswith (pyLower l0) "tags:" = false)
    (h2 : pyStartswith (pyLower l0) "category:" = false) :
    parseLoop (l0 :: ls) tags cat = (l0 :: ls, tags, cat) := by
  simp [parseLoop, h1, h2]

/-- Shared core of C5 and of the metadata-free case of C1: when the raw
text has Unix line endings, no trailing newline, a nonempty first line,
and its first line matches neither metadata key, `parse_metadata` passes
it through untouched. -/
theorem parse_passthrough (raw : String)
    (hr : '\r' ∉ raw.data) (hlast : raw.data.getLast? ≠ some '\n')
    (hhead : raw.data.head? ≠ some '\n')
    (htags : pyStartswith (pyLower raw) "tags:" = false)
    (hcat : pyStartswith (pyLower raw) "category:" = false) :
    parse_metadata raw = (raw, [], "") := by
  cases hcs : raw.data with
  | nil =>
    have hraw : raw = "" := by
      cases raw with
      | mk d =>
        rw [show d = [] from hcs]
    rw [hraw]
    rfl
  | cons c rest =>
    have hcne : c ≠ '\n' := by
      intro e
      rw [hcs] at hhead
      simp [e] at hhead
    obtain ⟨ls, hsplit⟩ := splitlinesAux_head raw.data [] hr
      (Or.inl (by rw [hcs]; exact List.cons_ne_nil _ _))
    have hsl : splitlines raw =
        (⟨raw.data.takeWhile fun c => c ≠ '\n'⟩ : String) ::
          ls.map (fun l => (⟨l⟩ : String)) := by
      unfold splitlines
      rw [hsplit]
      simp
    have hl0tags : pyStartswith
        (pyLower (⟨raw.data.takeWhile fun c => c ≠ '\n'⟩ : String))
        "tags:" = false := by
      by_contra hx
      rw [Bool.not_eq_false] at hx
      have := startswith_of_takeWhile ("tags:".data) raw.data hx
      rw [show ("tags:".data).isPrefixOf (raw.data.map Char.toLower) =
        pyStartswith (pyLower raw) "tags:" from rfl, htags] at this
      cases this
    have hl0cat : pyStartswith
        (pyLower (⟨raw.data.takeWhile fun c => c ≠ '\n'⟩ : String))
        "category:" = false := by
      by_contra hx
      rw [Bool.not_eq_false] at hx
      have := startswith_of_takeWhile ("category:".data) raw.data hx
      rw [show ("category:".data).isPrefixOf (raw.data.map Char.toLower) =
        pyStartswith (pyLower raw) "category:" from rfl, hcat] at this
      cases this
    have hl0ne : (⟨raw.data.takeWhile fun c => c ≠ '\n'⟩ : String) ≠ "" := by
      rw [hcs]
      intro he
      have := congrArg String.data he
      simp [List.takeWhile_cons, hcne] at this
    unfold parse_metadata
    rw [hsl, parseLoop_break _ _ _ _ hl0tags hl0cat]
    have hcond : ¬ ((((⟨raw.data.takeWhile fun c => c ≠ '\n'⟩ : String) ::
        ls.map fun l => (⟨l⟩ : String)) : List String).head? = some "") := by
      simp only [List.head?_cons, Option.some.injEq]
      exact hl0ne
    dsimp only
    rw [if_neg hcond]
    rw [← hsl, pyJoin_splitlines raw hr hlast]

theorem splitChar_no_sep (sep : Char) (l : List Char) (h : sep ∉ l) :
    splitChar sep l = [l] := by
  induction l with
  | nil => rfl
  | cons c t ih =>
    have hc : ¬ c = sep := fun e => h (e ▸ List.mem_cons_self c t)
    rw [splitChar, ih fun hm => h (List.mem_cons_of_mem c hm)]
    simp [hc]

theorem splitChar_append (sep : Char) (l1 l2 : List Char) (h : sep ∉ l1) :
    splitChar sep (l1 ++ sep :: l2) = l1 :: splitChar sep l2 := by
  induction l1 with
  | nil => simp [splitChar]
  | cons c t ih =>
    have hc : ¬ c = sep := fun e => h (e ▸ List.mem_cons_self c t)
    rw [List.cons_append, splitChar,
      ih fun hm => h (List.mem_cons_of_mem c hm)]
    simp [hc]

theorem map_data_mk (xs : List String) :
    (xs.map String.data).map (fun l => (⟨l⟩ : String)) = xs := by
  induction xs with
  | nil => rfl
  | cons a t ih => simp [ih]

theorem tags_core (ts : List (List Char))
    (h : ∀ t ∈ ts, t ≠ [] ∧ ',' ∉ t ∧ dropAround Char.isWhitespace t = t)
    (hne : ts ≠ []) :
    ((splitChar ',' (' ' :: joinWith [',', ' '] ts)).map
      (dropAround Char.isWhitespace)).filter (· ≠ []) = ts := by
  induction ts with
  | nil => exact absurd rfl hne
  | cons t rest ih =>
    obtain ⟨ht1, ht2, ht3⟩ := h t (List.mem_cons_self _ _)
    have hnom : ',' ∉ ' ' :: t := by
      intro hm
      rcases List.mem_cons.mp hm with hm | hm
      · cases hm
      · exact ht2 hm
    cases rest with
    | nil =>
      rw [show joinWith [',', ' '] [t] = t from rfl,
        splitChar_no_sep ',' _ hnom]
      simp [dropAround_cons_space t ht3, ht1]
    | cons t2 rest2 =>
      have hsp : ' ' :: joinWith [',', ' '] (t :: t2 :: rest2) =
          (' ' :: t) ++ ',' :: (' ' :: joinWith [',', ' '] (t2 :: rest2)) := by
        rw [joinWith_cons_ne_nil _ _ _ (List.cons_ne_nil _ _)]
        simp
      rw [hsp, splitChar_append ',' _ _ hnom]
      simp only [List.map_cons, List.filter_cons]
      rw [dropAround_cons_space t ht3]
      rw [if_pos (by simpa using ht1)]
      rw [ih (fun x hx => h x (List.mem_cons_of_mem _ hx))
        (List.cons_ne_nil _ _)]

theorem parseTagsValue_join (tags : List String) (hne : tags ≠ [])
    (h : ∀ t ∈ tags, t ≠ "" ∧ ',' ∉ t.data ∧ pyStrip t = t) :
    parseTagsValue ("Tags: " ++ pyJoin ", " tags) = tags := by
  unfold parseTagsValue
  rw [show afterFirst ':' (("Tags: " ++ pyJoin ", " tags).data) =
    ' ' :: joinWith [',', ' '] (tags.map String.data) from rfl]
  rw [tags_core (tags.map String.data) ?hconds (by simpa using hne)]
  · exact map_data_mk tags
  case hconds =>
    intro t' ht'
    obtain ⟨t, ht, rfl⟩ := List.mem_map.mp ht'
    obtain ⟨h1, h2, h3⟩ := h t ht
    refine ⟨fun he => h1 ?_, h2, ?_⟩
    · cases t with
      | mk d => rw [show d = [] from he]
    · exact congrArg String.data h3

theorem parseCategoryValue_cat (category : String)
    (h : pyStrip category = category) :
    parseCategoryValue ("Category: " ++ category) = category := by
  unfold parseCategoryValue
  rw [show afterFirst ':' (("Category: " ++ category).data) =
    ' ' :: category.data from rfl]
  rw [dropAround_cons_space category.data (congrArg String.data h)]

theorem not_mem_joinWith (ch : Char) (sep : List Char)
    (ts : List (List Char)) (hsep : ch ∉ sep) (h : ∀ t ∈ ts, ch ∉ t) :
    ch ∉ joinWith sep ts := by
  induction ts with
  | nil => simp [joinWith]
  | cons t rest ih =>
    cases rest with
    | nil =>
      rw [show joinWith sep [t] = t from rfl]
      exact h t (List.mem_cons_self _ _)
    | cons t2 rest2 =>
      rw [joinWith_cons_ne_nil _ _ _ (List.cons_ne_nil _ _)]
      intro hm
      rcases List.mem_append.mp hm with hm | hm
      · rcases List.mem_append.mp hm with hm | hm
        · exact h t (List.mem_cons_self _ _) hm
        · exact hsep hm
      · exact ih (fun x hx => h x (List.mem_cons_of_mem _ hx)) hm

theorem parseLoop_cat_step (l : String) (rest tags : List String)
    (cat : String)
    (h1 : pyStartswith (pyLower l) "tags:" = false)
    (h2 : pyStartswith (pyLower l) "category:" = true) :
    parseLoop (l :: rest) tags cat =
      parseLoop rest tags (parseCategoryValue l) := by
  simp [parseLoop, h1, h2]

theorem parseLoop_tags_step (l : String) (rest tags : List String)
    (cat : String)
    (h1 : pyStartswith (pyLower l) "tags:" = true) :
    parseLoop (l :: rest) tags cat =
      parseLoop rest (parseTagsValue l) cat := by
  simp [parseLoop, h1]

theorem parse_metadata_eq_of (raw body : String) (tags : List String)
    (category : String)
    (hr : '\r' ∉ body.data) (hlast : body.data.getLast? ≠ some '\n')
    (hloop : parseLoop (splitlines raw) [] "" =
      ("" :: splitlines body, tags, category)) :
    parse_metadata raw = (body, tags, category) := by
  unfold parse_metadata
  rw [hloop]
  dsimp only
  have hc : (("" :: splitlines body : List String)).head? = some "" := rfl
  rw [if_pos hc]
  simp only [List.tail_cons]
  rw [pyJoin_splitlines body hr hlast]

theorem pyJoin_data_cons (x : String) (xs : List String) (h : xs ≠ []) :
    (pyJoin "\n" (x :: xs)).data = x.data ++ '\n' :: (pyJoin "\n" xs).data := by
  show joinWith ['\n'] ((x :: xs).map String.data) = _
  rw [List.map_cons, joinWith_cons_ne_nil _ _ _ (by simpa using h)]
  simp [pyJoin]

theorem splitlines_two (h1 body : String) (hn1 : '\n' ∉ h1.data)
    (hr1 : '\r' ∉ h1.data) :
    splitlines (pyJoin "\n" [h1, "", body]) = h1 :: "" :: splitlines body := by
  unfold splitlines
  have hd : (pyJoin "\n" [h1, "", body]).data =
      h1.data ++ '\n' :: ('\n' :: body.data) := by
    rw [pyJoin_data_cons h1 ["", body] (by simp),
      pyJoin_data_cons "" [body] (by simp)]
    rfl
  rw [hd, splitlinesAux_line _ _ [] hn1 hr1, splitlinesAux_cons_newline]
  rfl

theorem splitlines_three (h1 h2 body : String) (hn1 : '\n' ∉ h1.data)
    (hr1 : '\r' ∉ h1.data) (hn2 : '\n' ∉ h2.data) (hr2 : '\r' ∉ h2.data) :
    splitlines (pyJoin "\n" [h1, h2, "", body]) =
      h1 :: h2 :: "" :: splitlines body := by
  unfold splitlines
  have hd : (pyJoin "\n" [h1, h2, "", body]).data =
      h1.data ++ '\n' :: (h2.data ++ '\n' :: ('\n' :: body.data)) := by
    rw [pyJoin_data_cons h1 [h2, "", body] (by simp),
      pyJoin_data_cons h2 ["", body] (by simp),
      pyJoin_data_cons "" [body] (by simp)]
    rfl
  rw [hd, splitlinesAux_line _ _ [] hn1 hr1,
    splitlinesAux_line _ _ [] hn2 hr2, splitlinesAux_cons_newline]
  rfl

theorem pyJoin_tags_ne_empty (tags : List String) (hne : tags ≠ [])
    (h : ∀ t ∈ tags, t ≠ "") : pyJoin ", " tags ≠ "" := by
  cases tags with
  | nil => exact absurd rfl hne
  | cons t rest =>
    have ht : t ≠ "" := h t (List.mem_cons_self _ _)
    have htd : t.data ≠ [] := by
      intro he
      apply ht
      cases t with
      | mk d => rw [show d = [] from he]
    intro he
    have hed := congrArg String.data he
    cases rest with
    | nil => exact htd (by simpa using hed)
    | cons t2 r2 =>
      rw [show (pyJoin ", " (t :: t2 :: r2)).data =
        joinWith [',', ' '] (t.data :: (t2 :: r2).map String.data)
        from rfl] at hed
      rw [joinWith_cons_ne_nil _ _ _ (by simp)] at hed
      simp at hed

/-- C1 (amended form): the round-trip `parse_metadata ∘ render_metadata`
recovers `(body, tags, category)` provided the inputs respect the format:
tags are nonempty, contain no comma and no line break, and are
whitespace-trimmed; the category contains no line break and is trimmed;
the body uses Unix line endings with no trailing newline; and when there
is no metadata at all, the body does not begin with a blank line or a
line that looks like a metadata key. -/
theorem c1_roundtrip (tags : List String) (category body : String)
    (htags : ∀ t ∈ tags, t ≠ "" ∧ ',' ∉ t.data ∧ '\n' ∉ t.data ∧
      '\r' ∉ t.data ∧ pyStrip t = t)
    (hcat_nl : '\n' ∉ category.data) (hcat_cr : '\r' ∉ category.data)
    (hcat_strip : pyStrip category = category)
    (hbody_cr : '\r' ∉ body.data)
    (hbody_last : body.data.getLast? ≠ some '\n')
    (hpass : tags = [] → category = "" →
      body.data.head? ≠ some '\n' ∧
      pyStartswith (pyLower body) "tags:" = false ∧
      pyStartswith (pyLower body) "category:" = false) :
    parse_metadata (render_metadata tags category body) =
      (body, tags, category) := by
  have hjoin_nl : '\n' ∉ (pyJoin ", " tags).data := by
    show '\n' ∉ joinWith [',', ' '] (tags.map String.data)
    refine not_mem_joinWith _ _ _ (by decide) ?_
    intro x hx
    obtain ⟨t, htm, rfl⟩ := List.mem_map.mp hx
    exact (htags t htm).2.2.1
  have hjoin_cr : '\r' ∉ (pyJoin ", " tags).data := by
    show '\r' ∉ joinWith [',', ' '] (tags.map String.data)
    refine not_mem_joinWith _ _ _ (by decide) ?_
    intro x hx
    obtain ⟨t, htm, rfl⟩ := List.mem_map.mp hx
    exact (htags t htm).2.2.2.1
  have htagconds : ∀ t ∈ tags, t ≠ "" ∧ ',' ∉ t.data ∧ pyStrip t = t :=
    fun t htm => ⟨(htags t htm).1, (htags t htm).2.1, (htags t htm).2.2.2.2⟩
  by_cases hc : category = ""
  · by_cases ht : tags = []
    · subst hc
      subst ht
      obtain ⟨h1, h2, h3⟩ := hpass rfl rfl
      rw [show render_metadata [] "" body = body from rfl]
      exact parse_passthrough body hbody_cr hbody_last h1 h2 h3
    · subst hc
      have hjne : pyJoin ", " tags ≠ "" :=
        pyJoin_tags_ne_empty tags ht fun t htm => (htags t htm).1
      have hfull : render_metadata tags "" body =
          pyJoin "\n" ["Tags: " ++ pyJoin ", " tags, "", body] := by
        simp [render_metadata, build_full, hjne]
      have hTn : '\n' ∉ ("Tags: " ++ pyJoin ", " tags).data := by
        rw [show ("Tags: " ++ pyJoin ", " tags).data =
          "Tags: ".data ++ (pyJoin ", " tags).data from rfl]
        intro hm
        rcases List.mem_append.mp hm with hm | hm
        · revert hm
          decide
        · exact hjoin_nl hm
      have hTr : '\r' ∉ ("Tags: " ++ pyJoin ", " tags).data := by
        rw [show ("Tags: " ++ pyJoin ", " tags).data =
          "Tags: ".data ++ (pyJoin ", " tags).data from rfl]
        intro hm
        rcases List.mem_append.mp hm with hm | hm
        · revert hm
          decide
        · exact hjoin_cr hm
      rw [hfull]
      apply parse_metadata_eq_of _ _ _ _ hbody_cr hbody_last
      rw [splitlines_two _ _ hTn hTr]
      rw [parseLoop_tags_step ("Tags: " ++ pyJoin ", " tags)
        ("" :: splitlines body) [] "" rfl]
      rw [parseLoop_break "" (splitlines body)
        (parseTagsValue ("Tags: " ++ pyJoin ", " tags)) "" rfl rfl]
      rw [parseTagsValue_join tags ht htagconds]
  · by_cases ht : tags = []
    · subst ht
      have hfull : render_metadata [] category body =
          pyJoin "\n" ["Category: " ++ category, "", body] := by
        simp [render_metadata, build_full, hc,
          show pyJoin ", " [] = "" from rfl]
      have hCn : '\n' ∉ ("Category: " ++ category).data := by
        rw [show ("Category: " ++ category).data =
          "Category: ".data ++ category.data from rfl]
        intro hm
        rcases List.mem_append.mp hm with hm | hm
        · revert hm
          decide
        · exact hcat_nl hm
      have hCr : '\r' ∉ ("Category: " ++ category).data := by
        rw [show ("Category: " ++ category).data =
          "Category: ".data ++ category.data from rfl]
        intro hm
        rcases List.mem_append.mp hm with hm | hm
        · revert hm
          decide
        · exact hcat_cr hm
      rw [hfull]
      apply parse_metadata_eq_of _ _ _ _ hbody_cr hbody_last
      rw [splitlines_two _ _ hCn hCr]
      rw [parseLoop_cat_step ("Category: " ++ category)
        ("" :: splitlines body) [] "" rfl rfl]
      rw [parseLoop_break "" (splitlines body) []
        (parseCategoryValue ("Category: " ++ category)) rfl rfl]
      rw [parseCategoryValue_cat category hcat_strip]
    · -- both a category and tags
      have hjne : pyJoin ", " tags ≠ "" :=
        pyJoin_tags_ne_empty tags ht fun t htm => (htags t htm).1
      have hfull : render_metadata tags category body =
          pyJoin "\n" ["Category: " ++ category,
            "Tags: " ++ pyJoin ", " tags, "", body] := by
        simp [render_metadata, build_full, hc, hjne]
      have hCn : '\n' ∉ ("Category: " ++ category).data := by
        rw [show ("Category: " ++ category).data =
          "Category: ".data ++ category.data from rfl]
        intro hm
        rcases List.mem_append.mp hm with hm | hm
        · revert hm
          decide
        · exact hcat_nl hm
      have hCr : '\r' ∉ ("Category: " ++ category).data := by
        rw [show ("Category: " ++ category).data =
          "Category: ".data ++ category.data from rfl]
        intro hm
        rcases List.mem_append.mp hm with hm | hm
        · revert hm
          decide
        · exact hcat_cr hm
      have hTn : '\n' ∉ ("Tags: " ++ pyJoin ", " tags).data := by
        rw [show ("Tags: " ++ pyJoin ", " tags).data =
          "Tags: ".data ++ (pyJoin ", " tags).data from rfl]
        intro hm
        rcases List.mem_append.mp hm with hm | hm
        · revert hm
          decide
        · exact hjoin_nl hm
      have hTr : '\r' ∉ ("Tags: " ++ pyJoin ", " tags).data := by
        rw [show ("Tags: " ++ pyJoin ", " tags).data =
          "Tags: ".data ++ (pyJoin ", " tags).data from rfl]
        intro hm
        rcases List.mem_append.mp hm with hm | hm
        · revert hm
          decide
        · exact hjoin_cr hm
      rw [hfull]
      apply parse_metadata_eq_of _ _ _ _ hbody_cr hbody_last
      rw [splitlines_three _ _ _ hCn hCr hTn hTr]
      rw [parseLoop_cat_step ("Category: " ++ category)
        (("Tags: " ++ pyJoin ", " tags) :: "" :: splitlines body) [] ""
        rfl rfl]
      rw [parseLoop_tags_step ("Tags: " ++ pyJoin ", " tags)
        ("" :: splitlines body) []
        (parseCategoryValue ("Category: " ++ category)) rfl]
      rw [parseLoop_break "" (splitlines body)
        (parseTagsValue ("Tags: " ++ pyJoin ", " tags))
        (parseCategoryValue ("Category: " ++ category)) rfl rfl]
      rw [parseTagsValue_join tags ht htagconds,
        parseCategoryValue_cat category hcat_strip]

/-- C1 (counterexample): the unconditional round-trip claim is false — a
body whose first line looks like a `tags:` header, rendered with empty
metadata, is re-parsed as metadata rather than as the body. -/
theorem c1_counterexample :
    parse_metadata (render_metadata [] "" "tags: x") ≠
      ("tags: x", [], "") := by
  decide

/-- C1 (witness): a concrete round-trip through `render_metadata` and
`parse_metadata` with tags, a category and a multi-line body. -/
theorem c1_roundtrip_witness :
    parse_metadata (render_metadata ["a", "tag b"] "Notes"
      "hello\n\nworld") = ("hello\n\nworld", ["a", "tag b"], "Notes") :=
  c1_roundtrip ["a", "tag b"] "Notes" "hello\n\nworld" (by decide)
    (by decide) (by decide) (by decide) (by decide) (by decide)
    (fun h => absurd h (by decide))

/-- C5 (counterexample): `"\nx"` has an empty first line, which starts
with neither `tags:` nor `category:`, yet `parse_metadata` is not a
pass-through on it — the leading blank line is consumed even though no
metadata preamble was consumed. -/
theorem c5_counterexample :
    pyStartswith (pyLower "\nx") "tags:" = false ∧
    pyStartswith (pyLower "\nx") "category:" = false ∧
    parse_metadata "\nx" = ("x", [], "") ∧
    parse_metadata "\nx" ≠ ("\nx", [], "") := by
  refine ⟨by decide, by decide, by decide, by decide⟩

/-- C5 (amended): `parse_metadata` is a pass-through on raw text whose
first line is nonempty and starts with neither `tags:` nor `category:`
(case-insensitively), provided the text uses Unix line endings and does
not end in a newline; the blank-line consumption happens after the
(possibly empty) consumed preamble regardless of whether any metadata
line was consumed. -/
theorem c5_passthrough (raw : String)
    (hr : '\r' ∉ raw.data) (hlast : raw.data.getLast? ≠ some '\n')
    (hhead : raw.data.head? ≠ some '\n')
    (htags : pyStartswith (pyLower raw) "tags:" = false)
    (hcat : pyStartswith (pyLower raw) "category:" = false) :
    parse_metadata raw = (raw, [], "") :=
  parse_passthrough raw hr hlast hhead htags hcat

/-- C5 (witness): a concrete two-line post with no metadata is passed
through unchanged. -/
theorem c5_passthrough_witness :
    parse_metadata "hello world\nsecond line" =
      ("hello world\nsecond line", [], "") :=
  c5_passthrough "hello world\nsecond line" (by decide) (by decide)
    (by decide) (by decide) (by decide)

end Blog
